import Mathlib

/-!
Cajita index spaces and global-grid entity counts.

A shallow embedding of `Cajita/Cajita_IndexSpace.hpp` (class `IndexSpace<N>` and the two
`appendDimension` overloads), of the global grid (entity counts, ownership windows, neighbor
ranks, partitioning) and of the matrix-matrix multiplication of
`core/Picasso_BatchedLinearAlgebra.hpp`.

Conventions of the embedding:

* a C++ `long` is an integer in `[-2^63, 2^63)`; it is carried as an `Int`, the predicate
  `isLong` says that the integer is in range, and every arithmetic result of the source
  (`_max[dim] - _min[dim]`, `size *= extent(d)`) is brought back into range by `wrapLong`
  (two's complement wrap-around);
* `Kokkos::Array<long,Rank>` is a function `Fin N → Int`: an axis index outside `[0, N)` is
  excluded by the type;
* `std::initializer_list<long>` and `std::vector<long>` are both `List Int`;
* a constructor body starts from the indeterminate contents of the members `_min` and `_max`,
  which are passed explicitly (`uninit`); a `std::copy` that would write past the end of a
  member array has no result (`none`);
* the global grid and the partitioner are not among the sources: their definitions follow
  the specification and say so.
-/

namespace Cajita

/-! ## Machine integers -/

/-- Two's complement reduction of an integer to the range of a 64-bit `long`. -/
def wrapLong (x : Int) : Int := (x + 2 ^ 63) % 2 ^ 64 - 2 ^ 63

/-- The integer is representable as a signed 64-bit `long`. -/
def isLong (x : Int) : Prop := -2 ^ 63 ≤ x ∧ x < 2 ^ 63

instance (x : Int) : Decidable (isLong x) := by
  unfold isLong; infer_instance

/-! ## `std::fill` and `std::copy` into a fixed-size array -/

/-- Contents of a `Kokkos::Array<long,N>`. -/
abbrev KokkosArray (N : Nat) := Fin N → Int

/-- Effect of `std::fill( a.data(), a.data() + N, v )`: every slot holds `v`. -/
def fill (N : Nat) (v : Int) (_a : KokkosArray N) : KokkosArray N := fun _ => v

/-- Effect of `std::copy( src.begin(), src.end(), a.data() )`: the elements of `src` overwrite
the leading slots of `a`, the remaining slots keep what they held; writing more than `N`
elements runs past the end of the array and yields no result. -/
def copy {N : Nat} (src : List Int) (a : KokkosArray N) : Option (KokkosArray N) :=
  if src.length ≤ N then
    some (fun i => if h : i.val < src.length then src.get ⟨i.val, h⟩ else a i)
  else none

/-! ## `IndexSpace<N>` -/

/-- Structured index space: the private members `_min` and `_max`. -/
structure IndexSpace (N : Nat) where
  /-- Minimum index bounds. -/
  _min : KokkosArray N
  /-- Maximum index bounds. -/
  _max : KokkosArray N

namespace IndexSpace

variable {N : Nat}

/-- Initializer list size constructor. -/
def ofInitializerListSize (uninit : IndexSpace N) (size : List Int) : Option (IndexSpace N) :=
  let m := fill N 0 uninit._min
  (copy size uninit._max).map fun M => ⟨m, M⟩

/-- Initializer list range constructor. -/
def ofInitializerListRange (uninit : IndexSpace N) (min max : List Int) :
    Option (IndexSpace N) :=
  (copy min uninit._min).bind fun m =>
  (copy max uninit._max).map fun M => ⟨m, M⟩

/-- Vector size constructor. -/
def ofVectorSize (uninit : IndexSpace N) (size : List Int) : Option (IndexSpace N) :=
  let m := fill N 0 uninit._min
  (copy size uninit._max).map fun M => ⟨m, M⟩

/-- Vector range constructor. -/
def ofVectorRange (uninit : IndexSpace N) (min max : List Int) : Option (IndexSpace N) :=
  (copy min uninit._min).bind fun m =>
  (copy max uninit._max).map fun M => ⟨m, M⟩

/-- Get the minimum index in a given dimension. -/
def min (s : IndexSpace N) (dim : Fin N) : Int := s._min dim

/-- Get the maximum index in a given dimension. -/
def max (s : IndexSpace N) (dim : Fin N) : Int := s._max dim

/-- Get the range of a given dimension. -/
def range (s : IndexSpace N) (dim : Fin N) : Int × Int := (s._min dim, s._max dim)

/-- Get the number of dimensions. -/
def rank (_s : IndexSpace N) : Nat := N

/-- Get the extent of a given dimension: `_max[dim] - _min[dim]` in `long` arithmetic. -/
def extent (s : IndexSpace N) (dim : Fin N) : Int := wrapLong (s._max dim - s._min dim)

/-- The loop `for ( d ...; ++d ) size *= extent(d)` over the axes still to visit. -/
def sizeLoop (s : IndexSpace N) : List (Fin N) → Int → Int
  | [], size => size
  | d :: ds, size => sizeLoop s ds (wrapLong (size * s.extent d))

/-- Get the total size of the index space. -/
def size (s : IndexSpace N) : Int := sizeLoop s (List.finRange N) 1

/-- The loop of `operator==` over the axes still to visit: the first axis on which the
bounds differ returns `false`. -/
def eqLoop (s rhs : IndexSpace N) : List (Fin N) → Bool
  | [] => true
  | i :: is =>
    if s.min i ≠ rhs.min i ∨ s.max i ≠ rhs.max i then false else eqLoop s rhs is

/-- Comparison operator `operator==`. -/
def operatorEq (s rhs : IndexSpace N) : Bool := eqLoop s rhs (List.finRange N)

/-- Comparison operator `operator!=`. -/
def operatorNe (s rhs : IndexSpace N) : Bool := !(operatorEq s rhs)

end IndexSpace

/-! ## `appendDimension` -/

/-- The loop `for ( int d = 0; d < N; ++d ) v[d] = a(d)` over the axes still to visit, where
`v` is a `std::vector<long>` and `a` is one of the accessors `min`, `max`. -/
def assignLoop {N : Nat} (a : Fin N → Int) : List (Fin N) → List Int → List Int
  | [], v => v
  | d :: ds, v => assignLoop a ds (v.set d.val (a d))

/-- Given an N-dimensional index space append an additional dimension with the given size. -/
def appendDimension {N : Nat} (uninit : IndexSpace (N + 1)) (index_space : IndexSpace N)
    (size : Int) : Option (IndexSpace (N + 1)) :=
  let min := List.replicate (N + 1) (0 : Int)
  let min := assignLoop (fun d => index_space.min d) (List.finRange N) min
  let min := min.set N 0
  let max := List.replicate (N + 1) (0 : Int)
  let max := assignLoop (fun d => index_space.max d) (List.finRange N) max
  let max := max.set N size
  IndexSpace.ofVectorRange uninit min max

/-- Given an N-dimensional index space append an additional dimension with the given range
(the overload `appendDimension( index_space, min, max )`). -/
def appendDimensionRange {N : Nat} (uninit : IndexSpace (N + 1)) (index_space : IndexSpace N)
    (min max : Int) : Option (IndexSpace (N + 1)) :=
  let range_min := List.replicate (N + 1) (0 : Int)
  let range_min := assignLoop (fun d => index_space.min d) (List.finRange N) range_min
  let range_min := range_min.set N min
  let range_max := List.replicate (N + 1) (0 : Int)
  let range_max := assignLoop (fun d => index_space.max d) (List.finRange N) range_max
  let range_max := range_max.set N max
  IndexSpace.ofVectorRange uninit range_min range_max

/-! ## Entity kinds and global entity counts -/

/-- Entity type tags of `Cajita_Types.hpp`: `Cell`, `Node` and `Face<D>` for the three
logical dimensions `Dim::I = 0`, `Dim::J = 1`, `Dim::K = 2`. -/
inductive Entity where
  | Cell : Entity
  | Node : Entity
  | Face : Fin 3 → Entity
  deriving DecidableEq, Repr

/-- Modelled from the spec: the global grid class (`Cajita_GlobalGrid.hpp`) is not among the
sources; only its unit test is. Of its state, the part the entity counts depend on: the
stored global cell count and the periodicity flag of each of the three axes. -/
structure GlobalGrid where
  /-- Global number of cells per axis, as stored. -/
  global_num_cell : Fin 3 → Int
  /-- Periodicity flag per axis. -/
  is_dim_periodic : Fin 3 → Bool

/-- Modelled from the spec: `GlobalGrid::globalNumEntity` is not among the sources. The spec
gives: "cell count as stored; node/face count per the periodicity rule", the rule being that
"node and axis-aligned-face counts along axis d equal the cell count along d if that axis is
periodic, otherwise cell-count+1", "for every axis independently". -/
def GlobalGrid.globalNumEntity (g : GlobalGrid) (kind : Entity) (d : Fin 3) : Int :=
  match kind with
  | Entity.Cell => g.global_num_cell d
  | Entity.Node => if g.is_dim_periodic d then g.global_num_cell d else g.global_num_cell d + 1
  | Entity.Face _ =>
    if g.is_dim_periodic d then g.global_num_cell d else g.global_num_cell d + 1

/-! ## Process topology and ownership windows of the global grid -/

/-- Modelled from the spec: the global grid class (`Cajita_GlobalGrid.hpp`) is not among the
sources. A global grid as one process of the collective holds it once built: the state of
`GlobalGrid` together with the process topology of the spec's data model, "total collective
size, per-axis process count, this process's Cartesian coordinate", and the rank-resolution
function of the collective's topology-forming primitive, which maps an in-range Cartesian
coordinate to a process rank. -/
structure BuiltGlobalGrid extends GlobalGrid where
  /-- Total collective size. -/
  collective_size : Nat
  /-- Number of processes along each axis. -/
  ranks_per_dim : Fin 3 → Nat
  /-- Cartesian coordinate of this process. -/
  dim_block_id : Fin 3 → Nat
  /-- Rank resolution of the collective's Cartesian topology. -/
  cart_rank : (Fin 3 → Int) → Int

namespace BuiltGlobalGrid

/-- Modelled from the spec: `totalNumBlock()`, topology self-identification: the total
collective size. -/
def totalNumBlock (g : BuiltGlobalGrid) : Nat := g.collective_size

/-- Modelled from the spec: `dimNumBlock(d)`, the per-axis process count. -/
def dimNumBlock (g : BuiltGlobalGrid) (d : Fin 3) : Nat := g.ranks_per_dim d

/-- Modelled from the spec: `dimBlockId(d)`, this process's Cartesian coordinate. -/
def dimBlockId (g : BuiltGlobalGrid) (d : Fin 3) : Nat := g.dim_block_id d

/-- Modelled from the spec: the grid held by the process whose coordinate on axis `d` is `k`,
in the same collective and over the same global mesh. -/
def atCoordinate (g : BuiltGlobalGrid) (d : Fin 3) (k : Nat) : BuiltGlobalGrid :=
  { g with dim_block_id := Function.update g.dim_block_id d k }

/-- Modelled from the spec: the share of the process at coordinate `k` when `cells` global
cells are split "into `ranksPerAxis[d]` near-equal shares (larger shares assigned to
lower-coordinate processes when the count doesn't divide evenly)". -/
def share (cells : Int) (ranks k : Nat) : Int :=
  cells / ranks + (if (k : Int) < cells % ranks then 1 else 0)

/-- Modelled from the spec: `ownedNumCell(d)`, "this process's share". -/
def ownedNumCell (g : BuiltGlobalGrid) (d : Fin 3) : Int :=
  share (g.global_num_cell d) (g.ranks_per_dim d) (g.dim_block_id d)

/-- Modelled from the spec: `globalOffset(d)`, this process's "prefix offset": the "sum of
counts of all lower-coordinate processes along that axis". -/
def globalOffset (g : BuiltGlobalGrid) (d : Fin 3) : Int :=
  ((List.range (g.dim_block_id d)).map
    (fun n => share (g.global_num_cell d) (g.ranks_per_dim d) n)).sum

end BuiltGlobalGrid

/-! ## Neighbor ranks -/

namespace BuiltGlobalGrid

/-- Modelled from the spec: `blockRank` on the coordinate array `cr = {i, j, k}`. "If the
axis is non-periodic and the coordinate is out of range, returns a sentinel"; the unit test
`gridTest` gives the sentinel, `-1`. "If the axis is periodic, indices are wrapped modulo
`dimNumBlock(d)` before lookup" by the rank resolution of the topology. -/
def blockRankOf (g : BuiltGlobalGrid) (cr : Fin 3 → Int) : Int :=
  if ∃ d : Fin 3, g.is_dim_periodic d = false ∧ (cr d < 0 ∨ (g.ranks_per_dim d : Int) ≤ cr d)
  then -1
  else g.cart_rank
    (fun d => if g.is_dim_periodic d then cr d % (g.ranks_per_dim d : Int) else cr d)

/-- Modelled from the spec: `blockRank(i,j,k)`, "resolve a Cartesian coordinate (possibly one
step outside `[0, dimNumBlock(d))` on any axis) to a process rank". -/
def blockRank (g : BuiltGlobalGrid) (i j k : Int) : Int := g.blockRankOf ![i, j, k]

end BuiltGlobalGrid

/-! ## Partitioner and grid construction -/

/-- Modelled from the spec: the factorizations of the collective size into three positive
integers, the search space of the partitioner, in lexicographic order. -/
def factorizations (collective_size : Nat) : List (Fin 3 → Nat) :=
  (List.range' 1 collective_size).flatMap fun a =>
  (List.range' 1 collective_size).flatMap fun b =>
  (List.range' 1 collective_size).filterMap fun c =>
    if a * b * c = collective_size then some ![a, b, c] else none

/-- Modelled from the spec: `ranksPerDimension` of the uniform partitioner
(`Cajita_UniformDimPartitioner.hpp` is not among the sources). "The uniform strategy must
choose a factorization that keeps the per-axis cell count divided by rank count as balanced
as possible across axes", "ties broken deterministically", and it "fails with
`InvalidPartition` if the product constraint cannot be satisfied". The spec does not fix the
measure of imbalance: it is the parameter `imbalance`, and the first least-imbalanced
factorization in lexicographic order is chosen. -/
def ranksPerDimension (imbalance : (Fin 3 → Int) → (Fin 3 → Nat) → Nat)
    (collective_size : Nat) (global_num_cell : Fin 3 → Int) : Option (Fin 3 → Nat) :=
  (factorizations collective_size).argmin (imbalance global_num_cell)

/-- A measure of imbalance: the spread, over the axes, of the cell count divided by the rank
count. -/
def cellsPerRankSpread (global_num_cell : Fin 3 → Int) (ranks : Fin 3 → Nat) : Nat :=
  let q : Fin 3 → Int := fun d => global_num_cell d / (ranks d : Int)
  (Max.max (q 0) (Max.max (q 1) (q 2)) - Min.min (q 0) (Min.min (q 1) (q 2))).toNat

/-- Modelled from the spec: the process collective, a collaborator "providing collective
size" and "a form-Cartesian-topology primitive returning per-axis coordinate and a
rank-resolution function", both depending on the per-axis process counts. -/
structure ProcessCollective where
  /-- Collective size. -/
  size : Nat
  /-- Coordinate of this process in the topology formed with the given process counts. -/
  cart_coords : (Fin 3 → Nat) → Fin 3 → Nat
  /-- Rank resolution of the topology formed with the given process counts. -/
  cart_rank : (Fin 3 → Nat) → (Fin 3 → Int) → Int

/-- Modelled from the spec: `createGlobalGrid` given explicit global cell counts: "invoke the
Partitioner to get `ranksPerAxis`; fails with `PartitionError` if unsatisfiable", then
"establish the Cartesian process topology". -/
def createGlobalGrid (comm : ProcessCollective)
    (partitioner : Nat → (Fin 3 → Int) → Option (Fin 3 → Nat))
    (is_dim_periodic : Fin 3 → Bool) (global_num_cell : Fin 3 → Int) :
    Option BuiltGlobalGrid :=
  (partitioner comm.size global_num_cell).map fun ranks =>
    { global_num_cell := global_num_cell
      is_dim_periodic := is_dim_periodic
      collective_size := comm.size
      ranks_per_dim := ranks
      dim_block_id := comm.cart_coords ranks
      cart_rank := comm.cart_rank ranks }

/-- A collective of four processes seen from the process at the origin of the topology, with
row-major rank resolution. -/
def fourProcesses : ProcessCollective where
  size := 4
  cart_coords := fun _ _ => 0
  cart_rank := fun ranks cr => (cr 0 * ranks 1 + cr 1) * ranks 2 + cr 2

/-- The grid of the unit test `gridTest`, global cell counts `{101, 85, 99}`, split over
`2 x 2 x 1` processes and held by the process at the origin. -/
def gridTestGrid (periodic : Bool) : BuiltGlobalGrid where
  global_num_cell := ![101, 85, 99]
  is_dim_periodic := fun _ => periodic
  collective_size := 4
  ranks_per_dim := ![2, 2, 1]
  dim_block_id := ![0, 0, 0]
  cart_rank := fun cr => (cr 0 * 2 + cr 1) * 1 + cr 2

end Cajita

namespace Picasso

namespace LinearAlgebra

/-! ## Dense matrices and matrix-matrix multiplication -/

/-- Dense matrix in row-major order, `Matrix<T,M,N,NoTranspose>`: the member `T _d[M][N]`.
The member `_extent` is the constant `{M, N}`. -/
structure Matrix (T : Type) (M N : Nat) where
  /-- Matrix entries. -/
  _d : Fin M → Fin N → T

/-- Access an individual element, `operator()( i, j )`. -/
def Matrix.get {T : Type} {M N : Nat} (a : Matrix T M N) (i : Fin M) (j : Fin N) : T :=
  a._d i j

/-- The routine `KokkosBatched::SerialGemm<NoTranspose,NoTranspose,Unblocked>::invoke(
alpha, A, B, beta, C )` of the KokkosKernels library, by its contract: it overwrites `C` with
`beta * C + alpha * A * B`. The result is the new content of `C`. -/
def serialGemm {T : Type} [Semiring T] {M N K : Nat} (alpha : T) (A : Matrix T M K)
    (B : Matrix T K N) (beta : T) (C : Matrix T M N) : Matrix T M N :=
  ⟨fun i j => beta * C._d i j + alpha * ∑ k, A._d i k * B._d k j⟩

/-- Matrix-matrix multiplication, NoTranspose case: `operator*( a, b )`. The local `c` is
default-constructed, which leaves `_d` with the indeterminate prior contents of its storage
(`uninit`); then `SerialGemm` is invoked with `alpha = 1.0` and `beta = 1.0`. -/
def operatorMul {T : Type} [Semiring T] {M N K : Nat} (uninit : Matrix T M N)
    (a : Matrix T M K) (b : Matrix T K N) : Matrix T M N :=
  let c := uninit
  serialGemm 1 a b 1 c

end LinearAlgebra

end Picasso

namespace Cajita

/-! ## Arithmetic of `wrapLong` -/

theorem wrapLong_isLong (x : Int) : isLong (wrapLong x) := by
  unfold isLong wrapLong
  have h1 := Int.emod_nonneg (x + 2 ^ 63) (show (2 : Int) ^ 64 ≠ 0 by norm_num)
  have h2 := Int.emod_lt_of_pos (x + 2 ^ 63) (show (0 : Int) < 2 ^ 64 by norm_num)
  constructor <;> omega

theorem wrapLong_of_isLong {x : Int} (h : isLong x) : wrapLong x = x := by
  unfold isLong at h
  unfold wrapLong
  have : (x + 2 ^ 63) % 2 ^ 64 = x + 2 ^ 63 :=
    Int.emod_eq_of_lt (by omega) (by omega)
  omega

theorem wrapLong_modEq (x : Int) : wrapLong x ≡ x [ZMOD 2 ^ 64] := by
  unfold wrapLong
  have h : (x + 2 ^ 63) % 2 ^ 64 ≡ x + 2 ^ 63 [ZMOD 2 ^ 64] := Int.mod_modEq _ _
  have := h.sub_right (2 ^ 63)
  simpa using this

theorem wrapLong_congr {x y : Int} (h : x ≡ y [ZMOD 2 ^ 64]) : wrapLong x = wrapLong y := by
  unfold wrapLong
  have h2 : (x + 2 ^ 63) % 2 ^ 64 = (y + 2 ^ 63) % 2 ^ 64 := h.add_right (2 ^ 63)
  rw [h2]

theorem wrapLong_mul_wrapLong (a b : Int) : wrapLong (a * wrapLong b) = wrapLong (a * b) :=
  wrapLong_congr ((Int.ModEq.refl a).mul (wrapLong_modEq b))

theorem wrapLong_wrapLong_mul (a b : Int) : wrapLong (wrapLong a * b) = wrapLong (a * b) :=
  wrapLong_congr ((wrapLong_modEq a).mul (Int.ModEq.refl b))

/-! ## `std::copy` and the constructors on lists of the right length -/

theorem copy_of_length_le {N : Nat} (src : List Int) (a : KokkosArray N) (h : src.length ≤ N) :
    ∃ f, copy src a = some f ∧
      ∀ i : Fin N, (∀ x, src[i.val]? = some x → f i = x) ∧ (src.length ≤ i.val → f i = a i) := by
  refine ⟨_, if_pos h, fun i => ⟨fun x hx => ?_, fun hi => ?_⟩⟩
  · obtain ⟨hlt, hget⟩ := List.getElem?_eq_some.mp hx
    simp only [dif_pos hlt, List.get_eq_getElem]
    exact hget
  · simp only [dif_neg (Nat.not_lt.mpr hi)]

theorem copy_of_length_eq {N : Nat} (src : List Int) (a : KokkosArray N) (h : src.length = N) :
    ∃ f, copy src a = some f ∧ ∀ i : Fin N, src[i.val]? = some (f i) := by
  obtain ⟨f, hf, hget⟩ := copy_of_length_le src a (le_of_eq h)
  refine ⟨f, hf, fun i => ?_⟩
  have hi : i.val < src.length := h ▸ i.isLt
  rw [List.getElem?_eq_getElem hi]
  rw [(hget i).1 _ (List.getElem?_eq_getElem hi)]

theorem copy_eq_none_of_length_gt {N : Nat} (src : List Int) (a : KokkosArray N)
    (h : N < src.length) : copy src a = none :=
  if_neg (Nat.not_le.mpr h)

namespace IndexSpace

variable {N : Nat}

theorem ofVectorRange_of_length_eq (uninit : IndexSpace N) (lo hi : List Int)
    (hlo : lo.length = N) (hhi : hi.length = N) :
    ∃ r, ofVectorRange uninit lo hi = some r ∧
      ∀ i : Fin N, lo[i.val]? = some (r.min i) ∧ hi[i.val]? = some (r.max i) := by
  obtain ⟨f, hf, hfget⟩ := copy_of_length_eq lo uninit._min hlo
  obtain ⟨g, hg, hgget⟩ := copy_of_length_eq hi uninit._max hhi
  exact ⟨⟨f, g⟩, by simp [ofVectorRange, hf, hg], fun i => ⟨hfget i, hgget i⟩⟩

theorem ofVectorSize_of_length_eq (uninit : IndexSpace N) (size : List Int)
    (hlen : size.length = N) :
    ∃ r, ofVectorSize uninit size = some r ∧
      ∀ i : Fin N, r.min i = 0 ∧ size[i.val]? = some (r.max i) := by
  obtain ⟨g, hg, hgget⟩ := copy_of_length_eq size uninit._max hlen
  exact ⟨⟨fill N 0 uninit._min, g⟩, by simp [ofVectorSize, hg], fun i => ⟨rfl, hgget i⟩⟩

end IndexSpace

/-! ## The assignment loop of `appendDimension` -/

theorem assignLoop_length {N : Nat} (a : Fin N → Int) (l : List (Fin N)) (v : List Int) :
    (assignLoop a l v).length = v.length := by
  induction l generalizing v with
  | nil => rfl
  | cons d ds ih => simp [assignLoop, ih]

theorem assignLoop_getElem?_of_not_mem {N : Nat} (a : Fin N → Int) (l : List (Fin N))
    (v : List Int) (i : Nat) (h : ∀ d ∈ l, d.val ≠ i) : (assignLoop a l v)[i]? = v[i]? := by
  induction l generalizing v with
  | nil => rfl
  | cons d ds ih =>
    simp only [assignLoop]
    rw [ih _ (fun e he => h e (List.mem_cons_of_mem _ he))]
    exact List.getElem?_set_ne (h d (List.mem_cons_self _ _))

theorem assignLoop_getElem?_of_mem {N : Nat} (a : Fin N → Int) (l : List (Fin N))
    (v : List Int) (d : Fin N) (hd : d ∈ l) (hv : d.val < v.length) :
    (assignLoop a l v)[d.val]? = some (a d) := by
  induction l generalizing v with
  | nil => cases hd
  | cons e es ih =>
    simp only [assignLoop]
    by_cases hmem : d ∈ es
    · exact ih _ hmem (by simpa using hv)
    · have hde : d = e := by
        rcases List.mem_cons.mp hd with h | h
        · exact h
        · exact absurd h hmem
      subst hde
      rw [assignLoop_getElem?_of_not_mem a es _ d.val
        (fun x hx hxd => hmem (Fin.ext hxd ▸ hx))]
      exact List.getElem?_set_self hv

/-- The vector that `appendDimension` builds from an accessor and the trailing value. -/
theorem assignLoop_set_last {N : Nat} (a : Fin N → Int) (x : Int) :
    ((assignLoop a (List.finRange N) (List.replicate (N + 1) 0)).set N x).length = N + 1 ∧
    (∀ d : Fin N,
      ((assignLoop a (List.finRange N) (List.replicate (N + 1) 0)).set N x)[d.val]?
        = some (a d)) ∧
    ((assignLoop a (List.finRange N) (List.replicate (N + 1) 0)).set N x)[N]? = some x := by
  refine ⟨by simp [assignLoop_length], fun d => ?_, ?_⟩
  · rw [List.getElem?_set_ne (Nat.ne_of_gt d.isLt)]
    exact assignLoop_getElem?_of_mem a _ _ d (List.mem_finRange d)
      (by simp; exact Nat.lt_succ_of_lt d.isLt)
  · exact List.getElem?_set_self (by simp [assignLoop_length])

/-! ## The size loop -/

namespace IndexSpace

variable {N : Nat}

theorem sizeLoop_eq (s : IndexSpace N) (l : List (Fin N)) (acc : Int) :
    sizeLoop s l (wrapLong acc) =
      wrapLong (acc * (l.map fun d => s.max d - s.min d).prod) := by
  induction l generalizing acc with
  | nil => simp [sizeLoop]
  | cons d ds ih =>
    simp only [sizeLoop, List.map_cons, List.prod_cons]
    rw [ih]
    apply wrapLong_congr
    rw [← mul_assoc]
    exact ((wrapLong_modEq acc).mul (wrapLong_modEq (s._max d - s._min d))).mul
      (Int.ModEq.refl _)

theorem size_eq_wrapLong_prod (s : IndexSpace N) :
    s.size = wrapLong (∏ d, (s.max d - s.min d)) := by
  have h := sizeLoop_eq s (List.finRange N) 1
  rw [wrapLong_of_isLong (by decide : isLong 1), one_mul] at h
  unfold size
  rw [h, ← List.ofFn_eq_map, List.prod_ofFn]

/-! ## Size of an index space -/

/-- C1, counterexample: the rank-2 space built by the vector size constructor from the sizes
`{2^32, 2^32}` has bounds `min = (0, 0)`, `max = (2^32, 2^32)`; the product of
`max[d] - min[d]` over its axes is `2^64`, which no `long` holds, and `size()` is `0`. -/
theorem size_ne_product_on_overflow :
    (ofVectorSize (N := 2) ⟨![7, 7], ![7, 7]⟩ [4294967296, 4294967296]).map
        (fun s => (s.min 0, s.min 1, s.max 0, s.max 1, s.size,
          ∏ d, (s.max d - s.min d)))
      = some (0, 0, 4294967296, 4294967296, 0, 18446744073709551616)
    ∧ (0 : Int) ≠ 18446744073709551616 := by
  decide

/-- C1, amended: for every rank `N` and every `IndexSpace<N>`, `size()` is the product over
all axes of `max[d] - min[d]` reduced to a signed 64-bit `long` (modulo `2^64`), and it is
that product itself whenever the product is representable as a signed 64-bit `long`. -/
theorem size_eq_product (s : IndexSpace N) :
    s.size = wrapLong (∏ d, (s.max d - s.min d)) ∧
      (isLong (∏ d, (s.max d - s.min d)) → s.size = ∏ d, (s.max d - s.min d)) := by
  refine ⟨size_eq_wrapLong_prod s, fun h => ?_⟩
  rw [size_eq_wrapLong_prod, wrapLong_of_isLong h]

/-- C1, witness: the space `[1,4) x [2,7)` has a representable product of differences, `15`,
and that is its size. -/
theorem size_eq_product_witness :
    isLong (∏ d, ((⟨![1, 2], ![4, 7]⟩ : IndexSpace 2).max d
        - (⟨![1, 2], ![4, 7]⟩ : IndexSpace 2).min d)) ∧
      (⟨![1, 2], ![4, 7]⟩ : IndexSpace 2).size = 15 := by
  refine ⟨by decide, ?_⟩
  rw [(size_eq_product ⟨![1, 2], ![4, 7]⟩).2 (by decide)]
  decide

/-- C2: if some axis `d` of an index space has `min(d) == max(d)`, then `extent(d) == 0` and
`size() == 0`, whatever the bounds of the other axes are. -/
theorem size_zero_of_empty_axis (s : IndexSpace N) (d : Fin N) (h : s.min d = s.max d) :
    s.extent d = 0 ∧ s.size = 0 := by
  have hd : s.max d - s.min d = 0 := by rw [h]; exact sub_self _
  constructor
  · show wrapLong (s.max d - s.min d) = 0
    rw [hd]; decide
  · rw [size_eq_wrapLong_prod, Finset.prod_eq_zero (Finset.mem_univ d) hd]
    decide

/-- C2, witness: in the rank-3 space with bounds `min = (0, 5, -3)`, `max = (7, 5, 9)` the
second axis is empty, so its extent and the size of the space are `0`. -/
theorem size_zero_of_empty_axis_witness :
    (⟨![0, 5, -3], ![7, 5, 9]⟩ : IndexSpace 3).min 1 = (⟨![0, 5, -3], ![7, 5, 9]⟩ : IndexSpace 3).max 1
      ∧ (⟨![0, 5, -3], ![7, 5, 9]⟩ : IndexSpace 3).extent 1 = 0
      ∧ (⟨![0, 5, -3], ![7, 5, 9]⟩ : IndexSpace 3).size = 0 :=
  ⟨by decide, size_zero_of_empty_axis ⟨![0, 5, -3], ![7, 5, 9]⟩ 1 (by decide)⟩

end IndexSpace

/-! ## Appending a dimension -/

theorem appendDimensionRange_returns {N : Nat} (uninit : IndexSpace (N + 1))
    (s : IndexSpace N) (lo hi : Int) :
    ∃ r, appendDimensionRange uninit s lo hi = some r ∧
      (∀ d : Fin N, r.min d.castSucc = s.min d ∧ r.max d.castSucc = s.max d) ∧
      r.min (Fin.last N) = lo ∧ r.max (Fin.last N) = hi := by
  obtain ⟨hlenm, hgetm, hlastm⟩ := assignLoop_set_last (fun d => s.min d) lo
  obtain ⟨hlenM, hgetM, hlastM⟩ := assignLoop_set_last (fun d => s.max d) hi
  obtain ⟨r, hr, hget⟩ := IndexSpace.ofVectorRange_of_length_eq uninit _ _ hlenm hlenM
  refine ⟨r, hr, fun d => ⟨?_, ?_⟩, ?_, ?_⟩
  · have h := (hget d.castSucc).1
    rw [Fin.coe_castSucc, hgetm d] at h
    exact (Option.some.inj h).symm
  · have h := (hget d.castSucc).2
    rw [Fin.coe_castSucc, hgetM d] at h
    exact (Option.some.inj h).symm
  · have h := (hget (Fin.last N)).1
    rw [Fin.val_last, hlastm] at h
    exact (Option.some.inj h).symm
  · have h := (hget (Fin.last N)).2
    rw [Fin.val_last, hlastM] at h
    exact (Option.some.inj h).symm

theorem appendDimension_eq_appendDimensionRange {N : Nat} (uninit : IndexSpace (N + 1))
    (s : IndexSpace N) (size : Int) :
    appendDimension uninit s size = appendDimensionRange uninit s 0 size := rfl

/-- C3: for every `IndexSpace<N>` `s` and every `long` `size`, `appendDimension(s, size)`
returns an `IndexSpace<N+1>` `r` with `r.min(d) == s.min(d)` and `r.max(d) == s.max(d)` for
every `d` in `[0, N)`, and with trailing axis `r.min(N) == 0` and `r.max(N) == size`. -/
theorem appendDimension_spec {N : Nat} (uninit : IndexSpace (N + 1)) (s : IndexSpace N)
    (size : Int) :
    ∃ r, appendDimension uninit s size = some r ∧
      (∀ d : Fin N, r.min d.castSucc = s.min d ∧ r.max d.castSucc = s.max d) ∧
      r.min (Fin.last N) = 0 ∧ r.max (Fin.last N) = size := by
  rw [appendDimension_eq_appendDimensionRange]
  exact appendDimensionRange_returns uninit s 0 size

/-- C4: for every `IndexSpace<N>` `s` and all `long`s `lo`, `hi`, `appendDimension(s, lo, hi)`
returns an `IndexSpace<N+1>` `r` with `r.min(d) == s.min(d)` and `r.max(d) == s.max(d)` for
every `d` in `[0, N)`, and with trailing axis `r.min(N) == lo` and `r.max(N) == hi`. -/
theorem appendDimensionRange_spec {N : Nat} (uninit : IndexSpace (N + 1)) (s : IndexSpace N)
    (lo hi : Int) :
    ∃ r, appendDimensionRange uninit s lo hi = some r ∧
      (∀ d : Fin N, r.min d.castSucc = s.min d ∧ r.max d.castSucc = s.max d) ∧
      r.min (Fin.last N) = lo ∧ r.max (Fin.last N) = hi :=
  appendDimensionRange_returns uninit s lo hi

/-! ## Constructors and accessors -/

namespace IndexSpace

variable {N : Nat}

theorem ofInitializerListSize_eq_ofVectorSize (uninit : IndexSpace N) (size : List Int) :
    ofInitializerListSize uninit size = ofVectorSize uninit size := rfl

theorem ofInitializerListRange_eq_ofVectorRange (uninit : IndexSpace N) (lo hi : List Int) :
    ofInitializerListRange uninit lo hi = ofVectorRange uninit lo hi := rfl

theorem getElem?_eq_some_get (l : List Int) (hlen : l.length = N) (d : Fin N) :
    l[d.val]? = some (l.get (Fin.cast hlen.symm d)) := by
  rw [List.getElem?_eq_getElem (hlen ▸ d.isLt)]
  rfl

/-- C5: for every list of exactly `N` sizes (each a `long`), the size constructors of
`IndexSpace<N>` (initializer list and vector) yield a space with `min(d) == 0`,
`max(d) == size[d]` and `extent(d) == size[d]` for every axis `d` in `[0, N)`. -/
theorem size_constructor_spec (uninit : IndexSpace N) (size : List Int)
    (hlen : size.length = N) (hlong : ∀ x ∈ size, isLong x) :
    ∃ s, ofInitializerListSize uninit size = some s ∧ ofVectorSize uninit size = some s ∧
      ∀ d : Fin N, s.min d = 0 ∧ s.max d = size.get (Fin.cast hlen.symm d) ∧
        s.extent d = size.get (Fin.cast hlen.symm d) := by
  obtain ⟨s, hs, hget⟩ := ofVectorSize_of_length_eq uninit size hlen
  refine ⟨s, hs, hs, fun d => ?_⟩
  have hmax : s.max d = size.get (Fin.cast hlen.symm d) := by
    have h := (hget d).2
    rw [getElem?_eq_some_get size hlen d] at h
    exact (Option.some.inj h).symm
  refine ⟨(hget d).1, hmax, ?_⟩
  show wrapLong (s.max d - s.min d) = _
  rw [(hget d).1, sub_zero, hmax]
  exact wrapLong_of_isLong (hlong _ (List.get_mem _ _ _))

/-- C5, witness: the sizes `{101, 85, 99}` give a rank-3 space. -/
theorem size_constructor_spec_witness :
    ∃ s, ofInitializerListSize (N := 3) ⟨![7, 7, 7], ![7, 7, 7]⟩ [101, 85, 99] = some s ∧
      ofVectorSize (N := 3) ⟨![7, 7, 7], ![7, 7, 7]⟩ [101, 85, 99] = some s ∧
      ∀ d : Fin 3, s.min d = 0 ∧ s.max d = [101, 85, 99].get (Fin.cast rfl d) ∧
        s.extent d = [101, 85, 99].get (Fin.cast rfl d) :=
  size_constructor_spec ⟨![7, 7, 7], ![7, 7, 7]⟩ [101, 85, 99] rfl (by decide)

/-- C6, counterexample: the rank-1 space built by the initializer-list range constructor from
`lo = {-2^63}`, `hi = {2^63 - 1}` has `min(0) == lo[0]` and `max(0) == hi[0]`, but
`extent(0)` is `-1`, not `hi[0] - lo[0] = 2^64 - 1`. -/
theorem extent_ne_difference_on_overflow :
    (ofInitializerListRange (N := 1) ⟨![7], ![7]⟩
        [-9223372036854775808] [9223372036854775807]).map
        (fun s => (s.min 0, s.max 0, s.extent 0))
      = some (-9223372036854775808, 9223372036854775807, -1)
    ∧ (-1 : Int) ≠ 9223372036854775807 - (-9223372036854775808) := by
  decide

/-- C6, amended: for every pair of length-`N` lists `(lo, hi)`, the range constructor of
`IndexSpace<N>` yields a space with `min(d) == lo[d]`, `max(d) == hi[d]`,
`range(d) == (lo[d], hi[d])` on every axis, and `extent(d)` is `hi[d] - lo[d]` reduced to a
signed 64-bit `long`: it equals `hi[d] - lo[d]` whenever that difference is representable
as a signed 64-bit `long`. -/
theorem range_constructor_spec (uninit : IndexSpace N) (lo hi : List Int)
    (hlo : lo.length = N) (hhi : hi.length = N) :
    ∃ s, ofInitializerListRange uninit lo hi = some s ∧
      ∀ d : Fin N, s.min d = lo.get (Fin.cast hlo.symm d) ∧
        s.max d = hi.get (Fin.cast hhi.symm d) ∧
        s.range d = (lo.get (Fin.cast hlo.symm d), hi.get (Fin.cast hhi.symm d)) ∧
        s.extent d = wrapLong (hi.get (Fin.cast hhi.symm d) - lo.get (Fin.cast hlo.symm d)) ∧
        (isLong (hi.get (Fin.cast hhi.symm d) - lo.get (Fin.cast hlo.symm d)) →
          s.extent d = hi.get (Fin.cast hhi.symm d) - lo.get (Fin.cast hlo.symm d)) := by
  obtain ⟨s, hs, hget⟩ := ofVectorRange_of_length_eq uninit lo hi hlo hhi
  refine ⟨s, hs, fun d => ?_⟩
  have hmin : s.min d = lo.get (Fin.cast hlo.symm d) := by
    have h := (hget d).1
    rw [getElem?_eq_some_get lo hlo d] at h
    exact (Option.some.inj h).symm
  have hmax : s.max d = hi.get (Fin.cast hhi.symm d) := by
    have h := (hget d).2
    rw [getElem?_eq_some_get hi hhi d] at h
    exact (Option.some.inj h).symm
  have hext : s.extent d
      = wrapLong (hi.get (Fin.cast hhi.symm d) - lo.get (Fin.cast hlo.symm d)) := by
    rw [← hmin, ← hmax]; rfl
  refine ⟨hmin, hmax, ?_, hext, fun h => ?_⟩
  · rw [← hmin, ← hmax]; rfl
  · rw [hext, wrapLong_of_isLong h]

/-- C6, witness: `lo = {1, 2}`, `hi = {4, 7}` give the space `[1,4) x [2,7)`, whose extents
`3` and `5` are the differences of the bounds. -/
theorem range_constructor_spec_witness :
    ∃ s, ofInitializerListRange (N := 2) ⟨![7, 7], ![7, 7]⟩ [1, 2] [4, 7] = some s ∧
      ∀ d : Fin 2, s.min d = [1, 2].get (Fin.cast rfl d) ∧
        s.max d = [4, 7].get (Fin.cast rfl d) ∧
        s.range d = ([1, 2].get (Fin.cast rfl d), [4, 7].get (Fin.cast rfl d)) ∧
        s.extent d = wrapLong ([4, 7].get (Fin.cast rfl d) - [1, 2].get (Fin.cast rfl d)) ∧
        (isLong ([4, 7].get (Fin.cast rfl d) - [1, 2].get (Fin.cast rfl d)) →
          s.extent d = [4, 7].get (Fin.cast rfl d) - [1, 2].get (Fin.cast rfl d)) :=
  range_constructor_spec ⟨![7, 7], ![7, 7]⟩ [1, 2] [4, 7] rfl rfl

/-! ## Comparison operators -/

theorem eqLoop_iff (a b : IndexSpace N) (l : List (Fin N)) :
    eqLoop a b l = true ↔ ∀ i ∈ l, a.min i = b.min i ∧ a.max i = b.max i := by
  induction l with
  | nil => simp [eqLoop]
  | cons i is ih =>
    by_cases h : a.min i ≠ b.min i ∨ a.max i ≠ b.max i
    · simp only [eqLoop, if_pos h, List.mem_cons, Bool.false_eq_true, false_iff]
      intro hall
      have := hall i (Or.inl rfl)
      rcases h with h | h
      · exact h this.1
      · exact h this.2
    · simp only [eqLoop, if_neg h, ih, List.mem_cons]
      have hi : a.min i = b.min i ∧ a.max i = b.max i := by
        constructor
        · by_contra hne; exact h (Or.inl hne)
        · by_contra hne; exact h (Or.inr hne)
      constructor
      · rintro hall j (rfl | hj)
        · exact hi
        · exact hall j hj
      · exact fun hall j hj => hall j (Or.inr hj)

theorem operatorEq_iff_forall (a b : IndexSpace N) :
    a.operatorEq b = true ↔ ∀ d : Fin N, a.min d = b.min d ∧ a.max d = b.max d := by
  unfold operatorEq
  rw [eqLoop_iff]
  exact ⟨fun h d => h d (List.mem_finRange d), fun h d _ => h d⟩

/-- C7: for every length-`N` input, the initializer-list and the `std::vector` constructors
of `IndexSpace<N>` agree, whatever the members held before: the size constructors given the
same sizes, and the range constructors given the same `(min, max)`, return spaces with
identical `min(d)` and `max(d)` on every axis, which compare equal with `operator==`. -/
theorem constructors_agree (u1 u2 : IndexSpace N) (size lo hi : List Int)
    (hsize : size.length = N) (hlo : lo.length = N) (hhi : hi.length = N) :
    (∃ a b, ofInitializerListSize u1 size = some a ∧ ofVectorSize u2 size = some b ∧
      (∀ d : Fin N, a.min d = b.min d ∧ a.max d = b.max d) ∧
      a.operatorEq b = true ∧ a.operatorNe b = false) ∧
    (∃ a b, ofInitializerListRange u1 lo hi = some a ∧ ofVectorRange u2 lo hi = some b ∧
      (∀ d : Fin N, a.min d = b.min d ∧ a.max d = b.max d) ∧
      a.operatorEq b = true ∧ a.operatorNe b = false) := by
  constructor
  · obtain ⟨a, ha, hga⟩ := ofVectorSize_of_length_eq u1 size hsize
    obtain ⟨b, hb, hgb⟩ := ofVectorSize_of_length_eq u2 size hsize
    have hall : ∀ d : Fin N, a.min d = b.min d ∧ a.max d = b.max d := fun d =>
      ⟨(hga d).1.trans (hgb d).1.symm,
        Option.some.inj ((hga d).2.symm.trans (hgb d).2)⟩
    have heq := (operatorEq_iff_forall a b).mpr hall
    exact ⟨a, b, ha, hb, hall, heq, by simp [operatorNe, heq]⟩
  · obtain ⟨a, ha, hga⟩ := ofVectorRange_of_length_eq u1 lo hi hlo hhi
    obtain ⟨b, hb, hgb⟩ := ofVectorRange_of_length_eq u2 lo hi hlo hhi
    have hall : ∀ d : Fin N, a.min d = b.min d ∧ a.max d = b.max d := fun d =>
      ⟨Option.some.inj ((hga d).1.symm.trans (hgb d).1),
        Option.some.inj ((hga d).2.symm.trans (hgb d).2)⟩
    have heq := (operatorEq_iff_forall a b).mpr hall
    exact ⟨a, b, ha, hb, hall, heq, by simp [operatorNe, heq]⟩

/-- C7, witness: the sizes `{101, 85, 99}` and the bounds `{1, 2, 3}`, `{4, 7, 9}`, on
members that held different values before. -/
theorem constructors_agree_witness :
    (∃ a b, ofInitializerListSize (N := 3) ⟨![7, 7, 7], ![7, 7, 7]⟩ [101, 85, 99] = some a ∧
      ofVectorSize (N := 3) ⟨![-1, 0, 5], ![2, 2, 2]⟩ [101, 85, 99] = some b ∧
      (∀ d : Fin 3, a.min d = b.min d ∧ a.max d = b.max d) ∧
      a.operatorEq b = true ∧ a.operatorNe b = false) ∧
    (∃ a b, ofInitializerListRange (N := 3) ⟨![7, 7, 7], ![7, 7, 7]⟩ [1, 2, 3] [4, 7, 9]
        = some a ∧
      ofVectorRange (N := 3) ⟨![-1, 0, 5], ![2, 2, 2]⟩ [1, 2, 3] [4, 7, 9] = some b ∧
      (∀ d : Fin 3, a.min d = b.min d ∧ a.max d = b.max d) ∧
      a.operatorEq b = true ∧ a.operatorNe b = false) :=
  constructors_agree ⟨![7, 7, 7], ![7, 7, 7]⟩ ⟨![-1, 0, 5], ![2, 2, 2]⟩
    [101, 85, 99] [1, 2, 3] [4, 7, 9] rfl rfl rfl

/-- C8: for all `IndexSpace<N>` `a` and `b`, `a == b` holds if and only if
`a.min(d) == b.min(d)` and `a.max(d) == b.max(d)` for every axis `d` in `[0, N)`, and
`a != b` is exactly the negation of `a == b`. -/
theorem operatorEq_spec (a b : IndexSpace N) :
    (a.operatorEq b = true ↔ ∀ d : Fin N, a.min d = b.min d ∧ a.max d = b.max d) ∧
      (a.operatorNe b = true ↔ ¬ (a.operatorEq b = true)) := by
  refine ⟨operatorEq_iff_forall a b, ?_⟩
  unfold operatorNe
  cases a.operatorEq b <;> simp

end IndexSpace

/-! ## Ordering of the bounds -/

theorem appendDimensionRange_ordered_iff {N : Nat} (uninit : IndexSpace (N + 1))
    (s : IndexSpace N) (lo hi : Int) :
    ∃ r, appendDimensionRange uninit s lo hi = some r ∧
      ((∀ d : Fin (N + 1), r.min d ≤ r.max d) ↔ (∀ d : Fin N, s.min d ≤ s.max d) ∧ lo ≤ hi) := by
  obtain ⟨r, hr, hfirst, hlastm, hlastM⟩ := appendDimensionRange_returns uninit s lo hi
  refine ⟨r, hr, ?_⟩
  rw [Fin.forall_fin_succ', hlastm, hlastM]
  constructor
  · rintro ⟨h, hl⟩
    exact ⟨fun d => by rw [← (hfirst d).1, ← (hfirst d).2]; exact h d, hl⟩
  · rintro ⟨h, hl⟩
    exact ⟨fun d => by rw [(hfirst d).1, (hfirst d).2]; exact h d, hl⟩

/-- C9, counterexample: the vector size constructor given the size `{-1}` returns a rank-1
space with `min(0) = 0 > max(0) = -1`, and the vector range constructor given `lo = {5}`,
`hi = {3}` returns one with `min(0) = 5 > max(0) = 3`. -/
theorem bounds_not_always_ordered :
    ((IndexSpace.ofVectorSize (N := 1) ⟨![7], ![7]⟩ [-1]).map (fun s => (s.min 0, s.max 0))
        = some (0, -1) ∧ ¬ ((0 : Int) ≤ -1)) ∧
    ((IndexSpace.ofVectorRange (N := 1) ⟨![7], ![7]⟩ [5] [3]).map
        (fun s => (s.min 0, s.max 0)) = some (5, 3) ∧ ¬ ((5 : Int) ≤ 3)) := by
  decide

/-- C9, amended: the constructors and both `appendDimension` overloads store the bounds they
are given without checking them, so the space they return satisfies `min(d) <= max(d)` on
every axis exactly when the input does: the size constructors iff every `size[d] >= 0`, the
range constructors iff `lo[d] <= hi[d]` on every axis, `appendDimension(s, n)` iff `s`
satisfies it and `n >= 0`, and `appendDimension(s, a, b)` iff `s` satisfies it and
`a <= b`. -/
theorem bounds_ordered_iff_input_ordered {N : Nat} (u : IndexSpace N)
    (u1 : IndexSpace (N + 1)) (size lo hi : List Int) (hsize : size.length = N)
    (hlo : lo.length = N) (hhi : hi.length = N) (s : IndexSpace N) (n a b : Int) :
    (∃ r, IndexSpace.ofInitializerListSize u size = some r ∧
      IndexSpace.ofVectorSize u size = some r ∧
      ((∀ d : Fin N, r.min d ≤ r.max d) ↔
        ∀ d : Fin N, 0 ≤ size.get (Fin.cast hsize.symm d))) ∧
    (∃ r, IndexSpace.ofInitializerListRange u lo hi = some r ∧
      IndexSpace.ofVectorRange u lo hi = some r ∧
      ((∀ d : Fin N, r.min d ≤ r.max d) ↔
        ∀ d : Fin N, lo.get (Fin.cast hlo.symm d) ≤ hi.get (Fin.cast hhi.symm d))) ∧
    (∃ r, appendDimension u1 s n = some r ∧
      ((∀ d : Fin (N + 1), r.min d ≤ r.max d) ↔ (∀ d : Fin N, s.min d ≤ s.max d) ∧ 0 ≤ n)) ∧
    (∃ r, appendDimensionRange u1 s a b = some r ∧
      ((∀ d : Fin (N + 1), r.min d ≤ r.max d) ↔ (∀ d : Fin N, s.min d ≤ s.max d) ∧ a ≤ b)) := by
  refine ⟨?_, ?_, appendDimensionRange_ordered_iff u1 s 0 n,
    appendDimensionRange_ordered_iff u1 s a b⟩
  · obtain ⟨r, hr, hget⟩ := IndexSpace.ofVectorSize_of_length_eq u size hsize
    refine ⟨r, hr, hr, ?_⟩
    have hmax : ∀ d : Fin N, r.max d = size.get (Fin.cast hsize.symm d) := fun d => by
      have h := (hget d).2
      rw [IndexSpace.getElem?_eq_some_get size hsize d] at h
      exact (Option.some.inj h).symm
    constructor
    · intro h d
      have := h d
      rwa [(hget d).1, hmax d] at this
    · intro h d
      rw [(hget d).1, hmax d]
      exact h d
  · obtain ⟨r, hr, hget⟩ := IndexSpace.ofVectorRange_of_length_eq u lo hi hlo hhi
    refine ⟨r, hr, hr, ?_⟩
    have hmin : ∀ d : Fin N, r.min d = lo.get (Fin.cast hlo.symm d) := fun d => by
      have h := (hget d).1
      rw [IndexSpace.getElem?_eq_some_get lo hlo d] at h
      exact (Option.some.inj h).symm
    have hmax : ∀ d : Fin N, r.max d = hi.get (Fin.cast hhi.symm d) := fun d => by
      have h := (hget d).2
      rw [IndexSpace.getElem?_eq_some_get hi hhi d] at h
      exact (Option.some.inj h).symm
    constructor
    · intro h d
      have := h d
      rwa [hmin d, hmax d] at this
    · intro h d
      rw [hmin d, hmax d]
      exact h d

/-- C9, witness: the sizes `{3, 5}`, the bounds `{1, 2}`, `{4, 7}` and the space
`[1,4) x [2,7)` extended by `3` and by `[-2, 6)`. -/
theorem bounds_ordered_iff_input_ordered_witness :
    (∃ r, IndexSpace.ofInitializerListSize (N := 2) ⟨![7, 7], ![7, 7]⟩ [3, 5] = some r ∧
      IndexSpace.ofVectorSize (N := 2) ⟨![7, 7], ![7, 7]⟩ [3, 5] = some r ∧
      ((∀ d : Fin 2, r.min d ≤ r.max d) ↔
        ∀ d : Fin 2, 0 ≤ ([3, 5] : List Int).get (Fin.cast rfl d))) ∧
    (∃ r, IndexSpace.ofInitializerListRange (N := 2) ⟨![7, 7], ![7, 7]⟩ [1, 2] [4, 7]
        = some r ∧
      IndexSpace.ofVectorRange (N := 2) ⟨![7, 7], ![7, 7]⟩ [1, 2] [4, 7] = some r ∧
      ((∀ d : Fin 2, r.min d ≤ r.max d) ↔
        ∀ d : Fin 2, ([1, 2] : List Int).get (Fin.cast rfl d)
          ≤ ([4, 7] : List Int).get (Fin.cast rfl d))) ∧
    (∃ r, appendDimension (N := 2) ⟨![7, 7, 7], ![7, 7, 7]⟩ ⟨![1, 2], ![4, 7]⟩ 3 = some r ∧
      ((∀ d : Fin 3, r.min d ≤ r.max d) ↔
        (∀ d : Fin 2, (⟨![1, 2], ![4, 7]⟩ : IndexSpace 2).min d
          ≤ (⟨![1, 2], ![4, 7]⟩ : IndexSpace 2).max d) ∧ (0 : Int) ≤ 3)) ∧
    (∃ r, appendDimensionRange (N := 2) ⟨![7, 7, 7], ![7, 7, 7]⟩ ⟨![1, 2], ![4, 7]⟩ (-2) 6
        = some r ∧
      ((∀ d : Fin 3, r.min d ≤ r.max d) ↔
        (∀ d : Fin 2, (⟨![1, 2], ![4, 7]⟩ : IndexSpace 2).min d
          ≤ (⟨![1, 2], ![4, 7]⟩ : IndexSpace 2).max d) ∧ (-2 : Int) ≤ 6)) :=
  bounds_ordered_iff_input_ordered ⟨![7, 7], ![7, 7]⟩ ⟨![7, 7, 7], ![7, 7, 7]⟩
    [3, 5] [1, 2] [4, 7] rfl rfl rfl ⟨![1, 2], ![4, 7]⟩ 3 (-2) 6

/-! ## Global entity counts -/

/-- C10: for every global grid and every axis `d`, `globalNumEntity(Cell, d)` is the stored
global cell count, and `globalNumEntity(Node, d)` and the count of the faces aligned with
axis `d` along `d` equal `globalNumEntity(Cell, d)` when axis `d` is periodic and
`globalNumEntity(Cell, d) + 1` when it is not. -/
theorem globalNumEntity_spec (g : GlobalGrid) (d : Fin 3) :
    g.globalNumEntity Entity.Cell d = g.global_num_cell d ∧
    g.globalNumEntity Entity.Node d =
      (if g.is_dim_periodic d then g.globalNumEntity Entity.Cell d
        else g.globalNumEntity Entity.Cell d + 1) ∧
    g.globalNumEntity (Entity.Face d) d =
      (if g.is_dim_periodic d then g.globalNumEntity Entity.Cell d
        else g.globalNumEntity Entity.Cell d + 1) :=
  ⟨rfl, rfl, rfl⟩

end Cajita

namespace Cajita

/-! ## Ownership windows -/

namespace BuiltGlobalGrid

theorem sum_share_below (cells : Int) (ranks : Nat) (k : Nat) :
    ((List.range k).map (fun n => share cells ranks n)).sum
      = k * (cells / ranks) + Nat.min k (cells % ranks).toNat := by
  induction k with
  | zero => simp
  | succ k ih =>
    rw [List.range_succ, List.map_append, List.sum_append, ih]
    simp only [List.map_cons, List.map_nil, List.sum_cons, List.sum_nil, add_zero, share]
    by_cases h : (k : Int) < cells % ranks
    · rw [if_pos h]
      have h1 : Nat.min k (cells % ranks).toNat = k := by
        apply Nat.min_eq_left; omega
      have h2 : Nat.min (k + 1) (cells % ranks).toNat = k + 1 := by
        apply Nat.min_eq_left; omega
      rw [h1, h2]; push_cast; ring
    · rw [if_neg h]
      have h1 : Nat.min k (cells % ranks).toNat = (cells % ranks).toNat := by
        apply Nat.min_eq_right; omega
      have h2 : Nat.min (k + 1) (cells % ranks).toNat = (cells % ranks).toNat := by
        apply Nat.min_eq_right; omega
      rw [h1, h2]; push_cast; ring

theorem sum_share_all (cells : Int) (ranks : Nat) (h : 1 ≤ ranks) :
    ((List.range ranks).map (fun n => share cells ranks n)).sum = cells := by
  rw [sum_share_below]
  have hpos : (0 : Int) < ranks := by exact_mod_cast h
  have h0 := Int.emod_nonneg cells (ne_of_gt hpos)
  have h1 := Int.emod_lt_of_pos cells hpos
  have hmin : Nat.min ranks (cells % ranks).toNat = (cells % ranks).toNat := by
    apply Nat.min_eq_right; omega
  rw [hmin, Int.toNat_of_nonneg h0]
  exact Int.ediv_add_emod cells ranks

theorem list_sum_range_eq_finset_sum (f : Nat → Int) (k : Nat) :
    ((List.range k).map f).sum = ∑ n in Finset.range k, f n := by
  induction k with
  | zero => simp
  | succ k ih =>
    rw [List.range_succ, List.map_append, List.sum_append, ih, Finset.sum_range_succ]
    simp

theorem ownedNumCell_atCoordinate (g : BuiltGlobalGrid) (d : Fin 3) (n : Nat) :
    (g.atCoordinate d n).ownedNumCell d = share (g.global_num_cell d) (g.ranks_per_dim d) n := by
  simp [ownedNumCell, atCoordinate]

theorem globalOffset_atCoordinate (g : BuiltGlobalGrid) (d : Fin 3) (k : Nat) :
    (g.atCoordinate d k).globalOffset d
      = ((List.range k).map (fun n => share (g.global_num_cell d) (g.ranks_per_dim d) n)).sum := by
  simp [globalOffset, atCoordinate]

/-- C11: on every axis `d` whose global cell count is split across `R = dimNumBlock(d) >= 1`
process coordinates, `globalOffset(d)` of the process at coordinate `k` is the sum of
`ownedNumCell(d)` over the coordinates `0..k-1`, and the sum of `ownedNumCell(d)` over all
`R` coordinates is `globalNumEntity(Cell, d)`, the stored global cell count. -/
theorem ownership_windows_tile (g : BuiltGlobalGrid) (d : Fin 3)
    (hR : 1 ≤ g.dimNumBlock d) :
    (∀ k : Nat, (g.atCoordinate d k).globalOffset d
      = ∑ n in Finset.range k, (g.atCoordinate d n).ownedNumCell d) ∧
    ∑ n in Finset.range (g.dimNumBlock d), (g.atCoordinate d n).ownedNumCell d
      = g.globalNumEntity Entity.Cell d ∧
    g.globalNumEntity Entity.Cell d = g.global_num_cell d := by
  refine ⟨fun k => ?_, ?_, rfl⟩
  · rw [globalOffset_atCoordinate, list_sum_range_eq_finset_sum]
    exact Finset.sum_congr rfl (fun n _ => (ownedNumCell_atCoordinate g d n).symm)
  · rw [Finset.sum_congr rfl (fun n _ => ownedNumCell_atCoordinate g d n),
      ← list_sum_range_eq_finset_sum]
    exact sum_share_all _ _ hR

/-- C11, witness: the first axis of the grid of the unit test, `101` cells over `2`
process coordinates. -/
theorem ownership_windows_tile_witness :
    1 ≤ (gridTestGrid true).dimNumBlock 0 ∧
    (∀ k : Nat, ((gridTestGrid true).atCoordinate 0 k).globalOffset 0
      = ∑ n in Finset.range k, ((gridTestGrid true).atCoordinate 0 n).ownedNumCell 0) ∧
    ∑ n in Finset.range ((gridTestGrid true).dimNumBlock 0),
        ((gridTestGrid true).atCoordinate 0 n).ownedNumCell 0
      = (gridTestGrid true).globalNumEntity Entity.Cell 0 ∧
    (gridTestGrid true).globalNumEntity Entity.Cell 0 = (gridTestGrid true).global_num_cell 0 :=
  ⟨by decide, ownership_windows_tile (gridTestGrid true) 0 (by decide)⟩

/-! ## Neighbor ranks -/

theorem blockRankOf_congr (g : BuiltGlobalGrid) (d : Fin 3) (hper : g.is_dim_periodic d = true)
    (cr cr2 : Fin 3 → Int) (hother : ∀ e : Fin 3, e ≠ d → cr e = cr2 e)
    (hmod : cr d % (g.ranks_per_dim d : Int) = cr2 d % (g.ranks_per_dim d : Int)) :
    g.blockRankOf cr = g.blockRankOf cr2 := by
  have hne : ∀ e : Fin 3, g.is_dim_periodic e = false → cr e = cr2 e := fun e he =>
    hother e (fun hed => by rw [hed, hper] at he; cases he)
  have hcond : (∃ e : Fin 3, g.is_dim_periodic e = false ∧
        (cr e < 0 ∨ (g.ranks_per_dim e : Int) ≤ cr e)) ↔
      (∃ e : Fin 3, g.is_dim_periodic e = false ∧
        (cr2 e < 0 ∨ (g.ranks_per_dim e : Int) ≤ cr2 e)) := by
    constructor
    · rintro ⟨e, he, h⟩
      exact ⟨e, he, by rw [← hne e he]; exact h⟩
    · rintro ⟨e, he, h⟩
      exact ⟨e, he, by rw [hne e he]; exact h⟩
  have hfun : (fun e => if g.is_dim_periodic e then cr e % (g.ranks_per_dim e : Int) else cr e)
      = (fun e => if g.is_dim_periodic e then cr2 e % (g.ranks_per_dim e : Int) else cr2 e) := by
    funext e
    by_cases hed : e = d
    · subst hed
      simp only [hper, if_true]
      exact hmod
    · rw [hother e hed]
  unfold blockRankOf
  rw [hfun]
  by_cases h : ∃ e : Fin 3, g.is_dim_periodic e = false ∧
      (cr e < 0 ∨ (g.ranks_per_dim e : Int) ≤ cr e)
  · rw [if_pos h, if_pos (hcond.mp h)]
  · rw [if_neg h, if_neg (fun h2 => h (hcond.mpr h2))]

theorem neg_one_emod (R : Int) : (-1 : Int) % R = (R - 1) % R := by
  have h : (R - 1) = -1 + R := by ring
  rw [h, Int.add_emod_self]

theorem self_emod_eq_zero_emod (R : Int) : R % R = 0 % R := by
  rw [Int.emod_self, Int.zero_emod]

theorem blockRankOf_out_of_range (g : BuiltGlobalGrid) (d : Fin 3)
    (hper : g.is_dim_periodic d = false) (cr : Fin 3 → Int)
    (hout : cr d < 0 ∨ (g.ranks_per_dim d : Int) ≤ cr d) : g.blockRankOf cr = -1 :=
  if_pos ⟨d, hper, hout⟩

/-- C12: on every periodic axis `blockRank` wraps the coordinate modulo `dimNumBlock(d)`: a
coordinate of `-1` resolves to the same rank as `dimNumBlock(d) - 1` and a coordinate of
`dimNumBlock(d)` to the same rank as `0`, for each of the axes I, J and K and whatever the
other two coordinates are (in particular `blockRank(-1,0,0) == blockRank(dimNumBlock(I)-1,0,0)`
and `blockRank(dimNumBlock(I),0,0) == blockRank(0,0,0)`). -/
theorem blockRank_periodic_wrap (g : BuiltGlobalGrid) :
    (g.is_dim_periodic 0 = true → ∀ j k : Int,
      g.blockRank (-1) j k = g.blockRank ((g.dimNumBlock 0 : Int) - 1) j k ∧
      g.blockRank (g.dimNumBlock 0 : Int) j k = g.blockRank 0 j k) ∧
    (g.is_dim_periodic 1 = true → ∀ i k : Int,
      g.blockRank i (-1) k = g.blockRank i ((g.dimNumBlock 1 : Int) - 1) k ∧
      g.blockRank i (g.dimNumBlock 1 : Int) k = g.blockRank i 0 k) ∧
    (g.is_dim_periodic 2 = true → ∀ i j : Int,
      g.blockRank i j (-1) = g.blockRank i j ((g.dimNumBlock 2 : Int) - 1) ∧
      g.blockRank i j (g.dimNumBlock 2 : Int) = g.blockRank i j 0) := by
  refine ⟨fun hper j k => ⟨?_, ?_⟩, fun hper i k => ⟨?_, ?_⟩, fun hper i j => ⟨?_, ?_⟩⟩
  · exact blockRankOf_congr g 0 hper _ _
      (fun e he => by fin_cases e <;> first | exact absurd rfl he | rfl) (neg_one_emod _)
  · exact blockRankOf_congr g 0 hper _ _
      (fun e he => by fin_cases e <;> first | exact absurd rfl he | rfl)
      (self_emod_eq_zero_emod _)
  · exact blockRankOf_congr g 1 hper _ _
      (fun e he => by fin_cases e <;> first | exact absurd rfl he | rfl) (neg_one_emod _)
  · exact blockRankOf_congr g 1 hper _ _
      (fun e he => by fin_cases e <;> first | exact absurd rfl he | rfl)
      (self_emod_eq_zero_emod _)
  · exact blockRankOf_congr g 2 hper _ _
      (fun e he => by fin_cases e <;> first | exact absurd rfl he | rfl) (neg_one_emod _)
  · exact blockRankOf_congr g 2 hper _ _
      (fun e he => by fin_cases e <;> first | exact absurd rfl he | rfl)
      (self_emod_eq_zero_emod _)

/-- C12, witness: in the periodic grid of the unit test, split over `2 x 2 x 1` processes,
`blockRank(-1,0,0)` and `blockRank(1,0,0)` are both rank `2`, and `blockRank(2,0,0)` and
`blockRank(0,0,0)` are both rank `0`. -/
theorem blockRank_periodic_wrap_witness :
    (gridTestGrid true).is_dim_periodic 0 = true ∧
    (gridTestGrid true).blockRank (-1) 0 0 = (gridTestGrid true).blockRank (2 - 1) 0 0 ∧
    (gridTestGrid true).blockRank 2 0 0 = (gridTestGrid true).blockRank 0 0 0 ∧
    (gridTestGrid true).blockRank (-1) 0 0 = 2 ∧ (gridTestGrid true).blockRank 2 0 0 = 0 :=
  ⟨rfl, ((blockRank_periodic_wrap (gridTestGrid true)).1 rfl 0 0).1,
    ((blockRank_periodic_wrap (gridTestGrid true)).1 rfl 0 0).2, by decide, by decide⟩

/-- C13: on every non-periodic axis `d`, `blockRank` with a coordinate on axis `d` outside
`[0, dimNumBlock(d))` (in particular `-1` or `dimNumBlock(d)`) returns the sentinel `-1`,
whatever the other two coordinates are, and the value returned differs from every valid rank
in `[0, totalNumBlock())`, rank `0` included. -/
theorem blockRank_nonperiodic_sentinel (g : BuiltGlobalGrid) (d : Fin 3)
    (hper : g.is_dim_periodic d = false) (cr : Fin 3 → Int)
    (hout : cr d < 0 ∨ (g.dimNumBlock d : Int) ≤ cr d) :
    g.blockRank (cr 0) (cr 1) (cr 2) = -1 ∧
    ∀ r : Int, 0 ≤ r → r < g.totalNumBlock → g.blockRank (cr 0) (cr 1) (cr 2) ≠ r := by
  have hcr : ![cr 0, cr 1, cr 2] = cr := by
    funext e; fin_cases e <;> rfl
  have h : g.blockRank (cr 0) (cr 1) (cr 2) = -1 := by
    unfold blockRank
    rw [hcr]
    exact blockRankOf_out_of_range g d hper cr hout
  refine ⟨h, fun r h0 _ hr => ?_⟩
  rw [h] at hr
  omega

/-- C13, witness: in the non-periodic grid of the unit test, split over `2 x 2 x 1`
processes, the coordinate `-1` on axis I is out of range. -/
theorem blockRank_nonperiodic_sentinel_witness :
    (gridTestGrid false).is_dim_periodic 0 = false ∧
    (((![-1, 0, 0] : Fin 3 → Int) 0 < 0) ∨
      (((gridTestGrid false).dimNumBlock 0 : Int) ≤ (![-1, 0, 0] : Fin 3 → Int) 0)) ∧
    (gridTestGrid false).blockRank (-1) 0 0 = -1 ∧
    ∀ r : Int, 0 ≤ r → r < (gridTestGrid false).totalNumBlock →
      (gridTestGrid false).blockRank (-1) 0 0 ≠ r :=
  ⟨rfl, Or.inl (by decide),
    blockRank_nonperiodic_sentinel (gridTestGrid false) 0 rfl ![-1, 0, 0] (Or.inl (by decide))⟩

end BuiltGlobalGrid

/-! ## Partitioning -/

theorem mem_factorizations {P : Nat} {r : Fin 3 → Nat} :
    r ∈ factorizations P ↔
      ∃ a b c : Nat, (1 ≤ a ∧ a ≤ P) ∧ (1 ≤ b ∧ b ≤ P) ∧ (1 ≤ c ∧ c ≤ P) ∧
        a * b * c = P ∧ r = ![a, b, c] := by
  unfold factorizations
  simp only [List.mem_flatMap, List.mem_filterMap, List.mem_range'_1]
  constructor
  · rintro ⟨a, ha, b, hb, c, hc, h⟩
    by_cases hP : a * b * c = P
    · rw [if_pos hP] at h
      exact ⟨a, b, c, ⟨ha.1, by omega⟩, ⟨hb.1, by omega⟩, ⟨hc.1, by omega⟩, hP,
        (Option.some.inj h).symm⟩
    · rw [if_neg hP] at h
      cases h
  · rintro ⟨a, b, c, ha, hb, hc, hP, hr⟩
    exact ⟨a, ⟨ha.1, by omega⟩, b, ⟨hb.1, by omega⟩, c, ⟨hc.1, by omega⟩, by
      rw [if_pos hP, hr]⟩

theorem factorizations_ne_nil {P : Nat} (hP : 1 ≤ P) : factorizations P ≠ [] := by
  have h : ![P, 1, 1] ∈ factorizations P :=
    mem_factorizations.mpr
      ⟨P, 1, 1, ⟨hP, le_refl P⟩, ⟨le_refl 1, hP⟩, ⟨le_refl 1, hP⟩, by simp, rfl⟩
  exact List.ne_nil_of_mem h

theorem ranksPerDimension_returns (imbalance : (Fin 3 → Int) → (Fin 3 → Nat) → Nat)
    (P : Nat) (hP : 1 ≤ P) (cells : Fin 3 → Int) :
    ∃ r, ranksPerDimension imbalance P cells = some r ∧ (∀ d : Fin 3, 1 ≤ r d) ∧
      ∏ d, r d = P := by
  unfold ranksPerDimension
  cases hr : (factorizations P).argmin (imbalance cells) with
  | none => exact absurd (List.argmin_eq_none.mp hr) (factorizations_ne_nil hP)
  | some r =>
    obtain ⟨a, b, c, ha, hb, hc, hprod, rfl⟩ := mem_factorizations.mp (List.argmin_mem hr)
    refine ⟨_, rfl, fun d => ?_, ?_⟩
    · fin_cases d
      · exact ha.1
      · exact hb.1
      · exact hc.1
    · rw [Fin.prod_univ_three]
      exact hprod

/-- C14: for every collective size `P >= 1` and every vector of global cell counts per axis,
`ranksPerDimension` of the uniform partitioner returns `ranksPerAxis` with
`ranksPerAxis[d] >= 1` on every axis and product `P`, whatever measure of imbalance it
minimises, and the grid built from it reports `dimNumBlock(d) == ranksPerAxis[d]` and
`totalNumBlock() == P`. -/
theorem uniform_partition_spec (comm : ProcessCollective) (hP : 1 ≤ comm.size)
    (imbalance : (Fin 3 → Int) → (Fin 3 → Nat) → Nat) (is_dim_periodic : Fin 3 → Bool)
    (global_num_cell : Fin 3 → Int) :
    ∃ ranks, ranksPerDimension imbalance comm.size global_num_cell = some ranks ∧
      (∀ d : Fin 3, 1 ≤ ranks d) ∧ ∏ d, ranks d = comm.size ∧
      ∃ g, createGlobalGrid comm (ranksPerDimension imbalance) is_dim_periodic global_num_cell
          = some g ∧
        (∀ d : Fin 3, g.dimNumBlock d = ranks d) ∧ g.totalNumBlock = comm.size := by
  obtain ⟨r, hr, hpos, hprod⟩ := ranksPerDimension_returns imbalance comm.size hP global_num_cell
  refine ⟨r, hr, hpos, hprod, ?_⟩
  unfold createGlobalGrid
  rw [hr]
  exact ⟨_, rfl, fun _ => rfl, rfl⟩

/-- C14, witness: four processes and the cell counts `{101, 85, 99}` of the unit test, with
the spread of cells per rank as the measure of imbalance. -/
theorem uniform_partition_spec_witness :
    1 ≤ fourProcesses.size ∧
    ∃ ranks, ranksPerDimension cellsPerRankSpread fourProcesses.size ![101, 85, 99]
        = some ranks ∧
      (∀ d : Fin 3, 1 ≤ ranks d) ∧ ∏ d, ranks d = fourProcesses.size ∧
      ∃ g, createGlobalGrid fourProcesses (ranksPerDimension cellsPerRankSpread)
          (fun _ => true) ![101, 85, 99] = some g ∧
        (∀ d : Fin 3, g.dimNumBlock d = ranks d) ∧ g.totalNumBlock = fourProcesses.size :=
  ⟨by decide, uniform_partition_spec fourProcesses (by decide) cellsPerRankSpread
    (fun _ => true) ![101, 85, 99]⟩

end Cajita

namespace Picasso

namespace LinearAlgebra

/-! ## Matrix-matrix multiplication -/

theorem operatorMul_get {T : Type} [Semiring T] {M N K : Nat} (uninit : Matrix T M N)
    (a : Matrix T M K) (b : Matrix T K N) (i : Fin M) (j : Fin N) :
    (operatorMul uninit a b).get i j = uninit.get i j + ∑ k, a.get i k * b.get k j := by
  simp [operatorMul, serialGemm, Matrix.get]

/-- C15, failing input: for `T = int` and `M = N = K = 1`, `a = {{1}}`, `b = {{1}}` and a
result storage that held `5`, `operator*` returns `c(0,0) = 6`, while the matrix product is
`sum over k of a(0,k) * b(k,0) = 1`; with a storage that held `0` it returns `1`, so the
result depends on the prior contents of the storage. -/
theorem operatorMul_adds_prior_contents :
    (operatorMul (⟨fun _ _ => 5⟩ : Matrix Int 1 1) (⟨fun _ _ => 1⟩ : Matrix Int 1 1)
      (⟨fun _ _ => 1⟩ : Matrix Int 1 1)).get 0 0 = 6 ∧
    (operatorMul (⟨fun _ _ => 0⟩ : Matrix Int 1 1) (⟨fun _ _ => 1⟩ : Matrix Int 1 1)
      (⟨fun _ _ => 1⟩ : Matrix Int 1 1)).get 0 0 = 1 ∧
    (∑ k : Fin 1, (⟨fun _ _ => 1⟩ : Matrix Int 1 1).get 0 k
      * (⟨fun _ _ => 1⟩ : Matrix Int 1 1).get k 0) = 1 := by
  decide

end LinearAlgebra

end Picasso

namespace Cajita

/-! ## Size under `appendDimension` and positivity of the size -/

theorem appendDimensionRange_size {N : Nat} (uninit : IndexSpace (N + 1)) (s : IndexSpace N)
    (lo hi : Int) :
    ∃ r, appendDimensionRange uninit s lo hi = some r ∧
      r.size = wrapLong (s.size * (hi - lo)) := by
  obtain ⟨r, hr, hfirst, hlastm, hlastM⟩ := appendDimensionRange_returns uninit s lo hi
  refine ⟨r, hr, ?_⟩
  rw [IndexSpace.size_eq_wrapLong_prod, IndexSpace.size_eq_wrapLong_prod,
    Fin.prod_univ_castSucc, hlastm, hlastM, wrapLong_wrapLong_mul]
  congr 2
  exact Finset.prod_congr rfl (fun d _ => by rw [(hfirst d).1, (hfirst d).2])

/-- C16: `size()` is multiplicative under `appendDimension`, as 64-bit `long` values: for
every `IndexSpace<N>` `s` and all `long`s `lo`, `hi`, `n`, `appendDimension(s, lo, hi)`
returns a space whose `size()` is `s.size() * (hi - lo)` evaluated in `long` arithmetic, and
`appendDimension(s, n)` one whose `size()` is `s.size() * n` evaluated in `long` arithmetic;
both are the exact products whenever these are representable as a signed 64-bit `long`. -/
theorem size_appendDimension {N : Nat} (uninit : IndexSpace (N + 1)) (s : IndexSpace N)
    (lo hi n : Int) :
    (∃ r, appendDimensionRange uninit s lo hi = some r ∧
      r.size = wrapLong (s.size * wrapLong (hi - lo)) ∧
      (isLong (s.size * (hi - lo)) → r.size = s.size * (hi - lo))) ∧
    (∃ r, appendDimension uninit s n = some r ∧
      r.size = wrapLong (s.size * n) ∧
      (isLong (s.size * n) → r.size = s.size * n)) := by
  constructor
  · obtain ⟨r, hr, hsize⟩ := appendDimensionRange_size uninit s lo hi
    refine ⟨r, hr, ?_, fun h => ?_⟩
    · rw [hsize, wrapLong_mul_wrapLong]
    · rw [hsize, wrapLong_of_isLong h]
  · obtain ⟨r, hr, hsize⟩ := appendDimensionRange_size uninit s 0 n
    rw [sub_zero] at hsize
    refine ⟨r, hr, hsize, fun h => ?_⟩
    rw [hsize, wrapLong_of_isLong h]

/-- C16, witness: the space `[1,4) x [2,7)` of size `15` extended by the range `[-2, 6)` has
size `120`, and extended by the size `3` has size `45`. -/
theorem size_appendDimension_witness :
    isLong ((⟨![1, 2], ![4, 7]⟩ : IndexSpace 2).size * (6 - (-2))) ∧
    isLong ((⟨![1, 2], ![4, 7]⟩ : IndexSpace 2).size * 3) ∧
    (∃ r, appendDimensionRange ⟨![7, 7, 7], ![7, 7, 7]⟩ (⟨![1, 2], ![4, 7]⟩ : IndexSpace 2)
        (-2) 6 = some r ∧ r.size = 120) ∧
    (∃ r, appendDimension ⟨![7, 7, 7], ![7, 7, 7]⟩ (⟨![1, 2], ![4, 7]⟩ : IndexSpace 2) 3
        = some r ∧ r.size = 45) := by
  have h := size_appendDimension ⟨![7, 7, 7], ![7, 7, 7]⟩
    (⟨![1, 2], ![4, 7]⟩ : IndexSpace 2) (-2) 6 3
  obtain ⟨⟨r1, hr1, _, h1⟩, ⟨r2, hr2, _, h2⟩⟩ := h
  refine ⟨by decide, by decide, ⟨r1, hr1, ?_⟩, ⟨r2, hr2, ?_⟩⟩
  · rw [h1 (by decide)]; decide
  · rw [h2 (by decide)]; decide

theorem factor_le_prod {N : Nat} (f : Fin N → Int) (hpos : ∀ d, 0 < f d) (d : Fin N) :
    f d ≤ ∏ e, f e := by
  rw [← Finset.mul_prod_erase Finset.univ f (Finset.mem_univ d)]
  have hrest : 0 < ∏ e in Finset.univ.erase d, f e :=
    Finset.prod_pos (fun e _ => hpos e)
  exact le_mul_of_one_le_right (le_of_lt (hpos d)) hrest

/-- C17: for every `IndexSpace<N>` whose product of extents `max(d) - min(d)` is
representable as a signed 64-bit `long`: if every axis is non-empty (`min(d) < max(d)` for
all `d`), then no subtraction or multiplication overflows, `extent(d)` is `max(d) - min(d)`
on every axis, `size()` is the product and `size() > 0`; and `size() == 0` holds only if
some axis has extent `0`. -/
theorem size_pos_of_nonempty_axes {N : Nat} (s : IndexSpace N)
    (hrep : isLong (∏ d, (s.max d - s.min d))) :
    ((∀ d : Fin N, s.min d < s.max d) →
      (∀ d : Fin N, s.extent d = s.max d - s.min d ∧ 0 < s.extent d) ∧
      s.size = ∏ d, s.extent d ∧ 0 < s.size) ∧
    (s.size = 0 → ∃ d : Fin N, s.extent d = 0) := by
  have hsize : s.size = ∏ d, (s.max d - s.min d) := by
    rw [IndexSpace.size_eq_wrapLong_prod, wrapLong_of_isLong hrep]
  constructor
  · intro hne
    have hpos : ∀ d : Fin N, 0 < s.max d - s.min d := fun d => sub_pos.mpr (hne d)
    have hext : ∀ d : Fin N, s.extent d = s.max d - s.min d := fun d => by
      have hle := factor_le_prod (fun d => s.max d - s.min d) hpos d
      have hlt := hrep.2
      have hp := hpos d
      have hlong : isLong (s.max d - s.min d) := ⟨by omega, lt_of_le_of_lt hle hlt⟩
      exact wrapLong_of_isLong hlong
    refine ⟨fun d => ⟨hext d, by rw [hext d]; exact hpos d⟩, ?_, ?_⟩
    · rw [hsize]
      exact Finset.prod_congr rfl (fun d _ => (hext d).symm)
    · rw [hsize]
      exact Finset.prod_pos (fun d _ => hpos d)
  · intro h0
    rw [hsize] at h0
    obtain ⟨d, _, hd⟩ := Finset.prod_eq_zero_iff.mp h0
    refine ⟨d, ?_⟩
    show wrapLong (s.max d - s.min d) = 0
    rw [hd]
    decide

/-- C17, witness: the space `[1,4) x [2,7)` has non-empty axes and the representable product
of extents `15`, its size; the space `[1,4) x [5,5)` has size `0` and an axis of extent
`0`. -/
theorem size_pos_of_nonempty_axes_witness :
    isLong (∏ d, ((⟨![1, 2], ![4, 7]⟩ : IndexSpace 2).max d
      - (⟨![1, 2], ![4, 7]⟩ : IndexSpace 2).min d)) ∧
    (∀ d : Fin 2, (⟨![1, 2], ![4, 7]⟩ : IndexSpace 2).min d
      < (⟨![1, 2], ![4, 7]⟩ : IndexSpace 2).max d) ∧
    0 < (⟨![1, 2], ![4, 7]⟩ : IndexSpace 2).size ∧
    isLong (∏ d, ((⟨![1, 5], ![4, 5]⟩ : IndexSpace 2).max d
      - (⟨![1, 5], ![4, 5]⟩ : IndexSpace 2).min d)) ∧
    (⟨![1, 5], ![4, 5]⟩ : IndexSpace 2).size = 0 ∧
    ∃ d : Fin 2, (⟨![1, 5], ![4, 5]⟩ : IndexSpace 2).extent d = 0 :=
  ⟨by decide, by decide,
    ((size_pos_of_nonempty_axes ⟨![1, 2], ![4, 7]⟩ (by decide)).1 (by decide)).2.2,
    by decide, by decide,
    (size_pos_of_nonempty_axes ⟨![1, 5], ![4, 5]⟩ (by decide)).2 (by decide)⟩

end Cajita
